import Mathlib

/-!
Verification development for the SwaRAG local search engine.

This file gives a shallow embedding of the engine's core components and
proves properties of them:

* `TextProcessor` (src/processing/text_processing.py): `tokenize`,
  `remove_stopwords`, `stem`, `process`, `process_with_positions`,
  `create_biwords`.
* `Indexer` / `QueryProcessor` (src/indexing/indexer.py): `index_question`,
  `index_answer`, `optimize_query_terms`, `phrase_search`.
* `Database` (src/data/database.py): an association-list model of the
  sqlite tables with `INSERT OR REPLACE` upsert semantics on the declared
  primary keys.
* `BM25Ranker` (src/ranking/bm25_ranker.py): `score_document`,
  `rank_documents`, `_collect_results`, `search_and_rank`.

Modelling conventions:

* Python strings are `List Char`; Python's Unicode-aware lowercasing and
  the `\w` character class are modelled at the ASCII level
  (`Char.toLower`, `Char.isAlphanum`), which agrees with Python on all
  ASCII text.
* Python floats are modelled as `ℚ`.  The only non-rational operation,
  `math.log`, and the only impure input, `time.time()`, are abstracted as
  parameters (`RankerParams.lnq`, `RankerParams.now`); every theorem below
  holds for every choice of these parameters.  Division by zero yields `0`
  in `ℚ` where Python would raise `ZeroDivisionError` (in that case the
  Python function returns nothing at all, so the containment properties
  proved below hold vacuously there).
* Python's stable Timsort is modelled by the stable `List.insertionSort`;
  sqlite's unordered `SELECT` result order is modelled by insertion order;
  Python `set` iteration order is modelled by first-insertion order.  No
  property proved below depends on the order of equal-keyed elements.
* `enumerate`, `defaultdict(list)` grouping and Python `dict` update
  semantics (insert at end for a new key, update in place for an existing
  key) are modelled by `enumAux`, `dedupFirst`/`positionsOf` and `upsert`.
-/

namespace SwaRAG

/-- Python strings are modelled as lists of characters. -/
abbrev Word := List Char

/-- The backquote character (used by the code-span regexes). -/
def bq : Char := Char.ofNat 96

/-! ### TextProcessor (src/processing/text_processing.py) -/

/-- The fixed stopword set of `TextProcessor._load_stopwords`. -/
def stopwords : List Word :=
  (["a", "about", "above", "after", "again", "against", "all", "am", "an", "and",
    "any", "are", "as", "at", "be", "because", "been", "before", "being", "below",
    "between", "both", "but", "by", "can", "cannot", "could", "did", "do", "does",
    "doing", "down", "during", "each", "few", "for", "from", "further", "had", "has",
    "have", "having", "he", "her", "here", "hers", "herself", "him", "himself", "his",
    "how", "i", "if", "in", "into", "is", "it", "its", "itself", "just", "me", "might",
    "more", "most", "must", "my", "myself", "no", "nor", "not", "now", "of", "off",
    "on", "once", "only", "or", "other", "our", "ours", "ourselves", "out", "over",
    "own", "same", "she", "should", "so", "some", "such", "than", "that", "the",
    "their", "theirs", "them", "themselves", "then", "there", "these", "they", "this",
    "those", "through", "to", "too", "under", "until", "up", "very", "was", "we",
    "were", "what", "when", "where", "which", "while", "who", "whom", "why", "will",
    "with", "would", "you", "your", "yours", "yourself", "yourselves"]).map String.data

/-- First match of the regex `<[^>]+>`: returns the text before the match and
the text after it, or `none` when the regex does not match. -/
def splitTag : List Char → Option (List Char × List Char)
  | [] => none
  | c :: rest =>
    if c = '<' then
      match rest.dropWhile (fun d => !(d = '>')) with
      | _ :: after =>
        if (rest.takeWhile (fun d => !(d = '>'))).isEmpty then
          match splitTag rest with
          | some (pre, after2) => some (c :: pre, after2)
          | none => none
        else some ([], after)
      | [] => none
    else
      match splitTag rest with
      | some (pre, after) => some (c :: pre, after)
      | none => none

/-- `re.sub(r'<[^>]+>', ' ', text)`: replace every tag-like span by a space.
Each match consumes at least one character, so `l.length` units of fuel
make the fuel case unreachable; the fuel only makes the recursion
structural (kernel-reducible). -/
def stripTagsAux : Nat → List Char → List Char
  | 0, l => l
  | fuel + 1, l =>
    match splitTag l with
    | none => l
    | some (pre, after) => pre ++ ' ' :: stripTagsAux fuel after

def stripTags (l : List Char) : List Char := stripTagsAux l.length l

/-- Splits a char list at the first occurrence of three consecutive
backquotes, returning the text before and after it. -/
def splitTriple : List Char → Option (List Char × List Char)
  | [] => none
  | c :: rest =>
    if (c :: rest).take 3 = [bq, bq, bq] then some ([], rest.drop 2)
    else
      match splitTriple rest with
      | some (pre, after) => some (c :: pre, after)
      | none => none

/-- `re.sub(r'```.*?```', ' ', text, flags=re.DOTALL)`: replace every
fenced code block (non-greedy: nearest closing fence) by a space. -/
def stripFencedAux : Nat → List Char → List Char
  | 0, l => l
  | fuel + 1, l =>
    match splitTriple l with
    | none => l
    | some (pre, rest) =>
      match splitTriple rest with
      | none => l
      | some (_, after) => pre ++ ' ' :: stripFencedAux fuel after

def stripFenced (l : List Char) : List Char := stripFencedAux l.length l

/-- First match of `` `[^`]+` ``: text before and after the match. -/
def splitInline : List Char → Option (List Char × List Char)
  | [] => none
  | c :: rest =>
    if c = bq then
      match rest.dropWhile (fun d => !(d = bq)) with
      | _ :: after =>
        if (rest.takeWhile (fun d => !(d = bq))).isEmpty then
          match splitInline rest with
          | some (pre, after2) => some (c :: pre, after2)
          | none => none
        else some ([], after)
      | [] => none
    else
      match splitInline rest with
      | some (pre, after) => some (c :: pre, after)
      | none => none

/-- `` re.sub(r'`[^`]+`', ' ', text) ``: replace inline code spans by a space. -/
def stripInlineAux : Nat → List Char → List Char
  | 0, l => l
  | fuel + 1, l =>
    match splitInline l with
    | none => l
    | some (pre, after) => pre ++ ' ' :: stripInlineAux fuel after

def stripInline (l : List Char) : List Char := stripInlineAux l.length l

/-- Whitespace, as used both by the `\s` class and by `str.split()`. -/
def isWs (c : Char) : Bool := c = ' ' || c = '\t' || c = '\n' || c = '\r'

/-- Characters kept by `re.sub(r'[^\w\s\+\#\-]', ' ', text)`. -/
def keepChar (c : Char) : Bool :=
  c.isAlphanum || c = '_' || isWs c || c = '+' || c = '#' || c = '-'

/-- `str.split()`: split on whitespace runs, dropping empty pieces.  The
accumulator holds the current in-progress token, reversed. -/
def wordsAux : List Char → List Char → List Word
  | [], cur => if cur.isEmpty then [] else [cur.reverse]
  | c :: rest, cur =>
    if isWs c then
      if cur.isEmpty then wordsAux rest [] else cur.reverse :: wordsAux rest []
    else wordsAux rest (c :: cur)

/-- `TextProcessor.tokenize`: strip markup tags, strip fenced and inline
code spans, lowercase, replace characters outside `[\w\s+#-]` by spaces,
and split on whitespace. -/
def tokenize (text : List Char) : List Word :=
  if text.isEmpty then []
  else
    let t1 := stripTags text
    let t2 := stripFenced t1
    let t3 := stripInline t2
    let t4 := t3.map Char.toLower
    let t5 := t4.map (fun c => if keepChar c then c else ' ')
    wordsAux t5 []

/-- Boolean list-prefix test (`needle` is a prefix of the second list). -/
def isPrefixB : Word → Word → Bool
  | [], _ => true
  | _ :: _, [] => false
  | a :: s, b :: w => a = b && isPrefixB s w

/-- `str.endswith(s)`: `s` is a suffix of `w`. -/
def isSuffixB (s w : Word) : Bool := isPrefixB s.reverse w.reverse

/-- Python's `word[:-n]` for `n ≥ 1`: drop the last `n` characters. -/
def dropRight (n : Nat) (w : Word) : Word := w.take (w.length - n)

/-- Python's substring test `needle in hay`. -/
def substrB (needle : Word) : Word → Bool
  | [] => needle.isEmpty
  | c :: rest => isPrefixB needle (c :: rest) || substrB needle rest

/-- Step 1 of `TextProcessor.stem` (the plural-stripping `if/elif` chain):
`sses` loses its last two characters, `ies` is rewritten to `i`, `ss` is
kept, any other trailing `s` is dropped. -/
def stem_step1 (w : Word) : Word :=
  if isSuffixB "sses".data w then dropRight 2 w
  else if isSuffixB "ies".data w then dropRight 3 w ++ ['i']
  else if isSuffixB "ss".data w then w
  else if isSuffixB "s".data w then dropRight 1 w
  else w

/-- Step 2 of `TextProcessor.stem`: the `eed`/`ed`/`ing` chain with the
minimum-residual-length guards. -/
def stem_step2 (w : Word) : Word :=
  if isSuffixB "eed".data w then (if 4 < w.length then dropRight 1 w else w)
  else if isSuffixB "ed".data w then (if 3 < w.length then dropRight 2 w else w)
  else if isSuffixB "ing".data w then (if 4 < w.length then dropRight 3 w else w)
  else w

/-- Step 3 of `TextProcessor.stem`: the derivational-suffix chain. -/
def stem_step3 (w : Word) : Word :=
  if isSuffixB "ational".data w then dropRight 7 w ++ "ate".data
  else if isSuffixB "tional".data w then dropRight 6 w ++ "tion".data
  else if isSuffixB "ization".data w then dropRight 7 w ++ "ize".data
  else if isSuffixB "ation".data w then dropRight 5 w ++ "ate".data
  else if isSuffixB "ness".data w then dropRight 4 w
  else if isSuffixB "ment".data w then dropRight 4 w
  else if isSuffixB "ity".data w then dropRight 3 w
  else if isSuffixB "er".data w then (if 3 < w.length then dropRight 2 w else w)
  else if isSuffixB "ly".data w then (if 3 < w.length then dropRight 2 w else w)
  else w

/-- `TextProcessor.stem`: words under 3 characters unchanged, otherwise
the three suffix-stripping steps in order. -/
def stem (w : Word) : Word :=
  if w.length < 3 then w else stem_step3 (stem_step2 (stem_step1 w))

/-- `TextProcessor.remove_stopwords`. -/
def remove_stopwords (tokens : List Word) : List Word :=
  tokens.filter (fun t => !(decide (t ∈ stopwords)))

/-- `TextProcessor.process`: tokenize, then optional stopword removal,
then optional stemming. -/
def process (rs st : Bool) (text : List Char) : List Word :=
  let t1 := tokenize text
  let t2 := if rs then remove_stopwords t1 else t1
  if st then t2.map stem else t2

/-- The `enumerate` loop body of `TextProcessor.process_with_positions`:
`p` is the position of the head token in the raw token stream. -/
def pwpAux (rs st : Bool) : Nat → List Word → List (Word × Nat)
  | _, [] => []
  | p, tok :: rest =>
    if rs && decide (tok ∈ stopwords) then pwpAux rs st (p + 1) rest
    else ((if st then stem tok else tok), p) :: pwpAux rs st (p + 1) rest

/-- `TextProcessor.process_with_positions`: the same pipeline as `process`
but each emitted token keeps its index in the raw tokenized sequence. -/
def process_with_positions (rs st : Bool) (text : List Char) : List (Word × Nat) :=
  pwpAux rs st 0 (tokenize text)

/-- `TextProcessor.create_biwords`: adjacent tokens joined by `_`. -/
def create_biwords (tokens : List Word) : List Word :=
  if tokens.length < 2 then []
  else (tokens.zip tokens.tail).map (fun p => p.1 ++ '_' :: p.2)

/-! ### Generic helpers: `enumerate`, dict-key order, upsert maps -/

/-- Python's `enumerate(l, i)`, with the pair swapped to `(value, index)`
to match how the indexer consumes it. -/
def enumAux {α : Type} : Nat → List α → List (α × Nat)
  | _, [] => []
  | i, a :: rest => (a, i) :: enumAux (i + 1) rest

/-- The keys of a Python dict in insertion order: first occurrences, in
order of first appearance. -/
def dedupFirst {α : Type} [DecidableEq α] : List α → List α
  | [] => []
  | a :: rest => a :: (dedupFirst rest).filter (fun b => !(decide (b = a)))

/-- `INSERT OR REPLACE` / Python dict assignment on an association list:
replace the value at an existing key in place, else append at the end. -/
def upsert {κ ν : Type} [DecidableEq κ] (k : κ) (v : ν) :
    List (κ × ν) → List (κ × ν)
  | [] => [(k, v)]
  | (k1, v1) :: rest => if k1 = k then (k, v) :: rest else (k1, v1) :: upsert k v rest

/-- Key lookup in an association list (first matching key). -/
def lookupA {κ ν : Type} [DecidableEq κ] (k : κ) : List (κ × ν) → Option ν
  | [] => none
  | (k1, v1) :: rest => if k1 = k then some v1 else lookupA k rest

/-- Apply a list of keyed writes, in order, as upserts. -/
def applyW {κ ν : Type} [DecidableEq κ] (ws : List (κ × ν)) (m : List (κ × ν)) :
    List (κ × ν) :=
  ws.foldl (fun acc kv => upsert kv.1 kv.2 acc) m

/-! ### Data model and Database (src/data/database.py)

The sqlite tables are modelled as association lists keyed by their
declared primary keys; `INSERT OR REPLACE` is `upsert`.  The `doc_type`
column is `TEXT` in the schema, but the engine only ever writes and reads
the three values `question`, `answer` and `question_tag`, modelled as an
inductive type. -/

/-- The three `doc_type` values used by the engine. -/
inductive DocType : Type
  | question
  | answer
  | question_tag
deriving DecidableEq, Repr

/-- One row of `Database.get_postings`: `(doc_id, doc_type, frequency,
positions)`. -/
structure Posting where
  doc_id : Int
  doc_type : DocType
  freq : Nat
  positions : List Nat
deriving DecidableEq, Repr

/-- A row of the `questions` table, as returned by `get_question` (the
`tags` column stores one text blob). -/
structure Question where
  title : Word
  body : Word
  tags : Word
  score : Int
  creation_date : Int
  link : Word
deriving DecidableEq, Repr

/-- A row of the `answers` table. -/
structure Answer where
  answer_id : Int
  question_id : Int
  body : Word
  score : Int
  is_accepted : Bool
deriving DecidableEq, Repr

/-- The persistent store: `inverted_index` and `biword_index` are keyed by
`(term, doc_id, doc_type)`, `doc_stats` by `(doc_id, doc_type)`,
`questions` by `question_id`. -/
structure Database where
  inverted_index : List ((Word × Int × DocType) × (Nat × List Nat))
  biword_index : List ((Word × Int × DocType) × (Nat × List Nat))
  doc_stats : List ((Int × DocType) × Nat)
  questions : List (Int × Question)
  answers : List Answer
deriving DecidableEq

/-- The empty store (fresh `initialize_database`). -/
def emptyDB : Database := ⟨[], [], [], [], []⟩

/-- `Database.get_postings term`: all inverted-index rows for `term`. -/
def get_postings (db : Database) (term : Word) : List Posting :=
  (db.inverted_index.filter (fun e => decide (e.1.1 = term))).map
    (fun e => ⟨e.1.2.1, e.1.2.2, e.2.1, e.2.2⟩)

/-- `Database.get_doc_stats`. -/
def get_doc_stats (db : Database) (doc_id : Int) (doc_type : DocType) : Option Nat :=
  lookupA (doc_id, doc_type) db.doc_stats

/-- `Database.get_question`. -/
def get_question (db : Database) (question_id : Int) : Option Question :=
  lookupA question_id db.questions

/-- The `ORDER BY is_accepted DESC, score DESC` comparison of
`Database.get_answers`. -/
def answer_before (a b : Answer) : Bool :=
  (b.is_accepted.toNat < a.is_accepted.toNat) ||
    (a.is_accepted.toNat = b.is_accepted.toNat && b.score ≤ a.score)

/-- `Database.get_answers`: the answers of a question, accepted first,
then by score descending. -/
def get_answers (db : Database) (question_id : Int) : List Answer :=
  List.insertionSort (fun a b => answer_before a b = true)
    (db.answers.filter (fun a => decide (a.question_id = question_id)))

/-- `Database.get_total_docs`: `COUNT(*)` over `doc_stats`. -/
def get_total_docs (db : Database) : Nat := db.doc_stats.length

/-- `Database.get_avg_doc_length`: `AVG(doc_length)` over `doc_stats`
(`0.0` when the table is empty, matching the `NULL` fallback). -/
def get_avg_doc_length (db : Database) : ℚ :=
  if db.doc_stats.isEmpty then 0
  else (db.doc_stats.map (fun e => (e.2 : ℚ))).sum / (db.doc_stats.length : ℚ)

/-! ### Indexer (src/indexing/indexer.py) -/

/-- The positions recorded for one term by the `defaultdict(list)`
grouping loop: the second components of the pairs with that key, in
order. -/
def positionsOf (pairs : List (Word × Nat)) (t : Word) : List Nat :=
  (pairs.filter (fun p => decide (p.1 = t))).map Prod.snd

/-- The `term_positions.items()` sequence: one `(term, (frequency,
positions))` entry per distinct key, in first-insertion order, with
`frequency = len(positions)`. -/
def termEntriesOf (pairs : List (Word × Nat)) : List (Word × (Nat × List Nat)) :=
  (dedupFirst (pairs.map Prod.fst)).map
    (fun t => (t, ((positionsOf pairs t).length, positionsOf pairs t)))

/-- `f"{title} {title} {body}"`: the full text indexed for a question. -/
def fullText (title body : Word) : Word := title ++ ' ' :: title ++ ' ' :: body

/-- The `(token, position)` pairs indexed for a question. -/
def questionPairs (title body : Word) : List (Word × Nat) :=
  process_with_positions true true (fullText title body)

/-- The term postings written by `index_question` (before keying). -/
def question_term_writes (title body : Word) : List (Word × (Nat × List Nat)) :=
  termEntriesOf (questionPairs title body)

/-- The biword postings written by `index_question`: biwords are built
over the position-less token sequence; their positions are indices into
the biword sequence. -/
def question_biword_writes (title body : Word) : List (Word × (Nat × List Nat)) :=
  termEntriesOf (enumAux 0 (create_biwords ((questionPairs title body).map Prod.fst)))

/-- The tag postings written by `index_question`: each tag is lowercased
and stemmed, with `frequency = 1` and `positions = [0]`. -/
def tag_writes (tags : List Word) : List (Word × (Nat × List Nat)) :=
  tags.map (fun tg => (stem (tg.map Char.toLower), (1, [0])))

/-- `Indexer.index_question`: writes one posting per distinct term of the
title-duplicated full text, one biword posting per distinct biword, the
doc-stats row, and one tag posting per tag. -/
def index_question (db : Database) (question_id : Int) (title body : Word)
    (tags : List Word) : Database :=
  { db with
    inverted_index :=
      applyW ((tag_writes tags).map
          (fun e => ((e.1, question_id, DocType.question_tag), e.2)))
        (applyW ((question_term_writes title body).map
            (fun e => ((e.1, question_id, DocType.question), e.2)))
          db.inverted_index)
    biword_index :=
      applyW ((question_biword_writes title body).map
          (fun e => ((e.1, question_id, DocType.question), e.2)))
        db.biword_index
    doc_stats :=
      upsert (question_id, DocType.question) (questionPairs title body).length
        db.doc_stats }

/-- The `(token, position)` pairs indexed for an answer (body only). -/
def answerPairs (body : Word) : List (Word × Nat) :=
  process_with_positions true true body

/-- The term postings written by `index_answer`. -/
def answer_term_writes (body : Word) : List (Word × (Nat × List Nat)) :=
  termEntriesOf (answerPairs body)

/-- The biword postings written by `index_answer`. -/
def answer_biword_writes (body : Word) : List (Word × (Nat × List Nat)) :=
  termEntriesOf (enumAux 0 (create_biwords ((answerPairs body).map Prod.fst)))

/-- `Indexer.index_answer`: the same pipeline over the body only, with
`doc_type = answer` and no tag postings (the `question_id` argument is
accepted but never used by the Python code either). -/
def index_answer (db : Database) (answer_id : Int) (_question_id : Int)
    (body : Word) : Database :=
  { db with
    inverted_index :=
      applyW ((answer_term_writes body).map
          (fun e => ((e.1, answer_id, DocType.answer), e.2)))
        db.inverted_index
    biword_index :=
      applyW ((answer_biword_writes body).map
          (fun e => ((e.1, answer_id, DocType.answer), e.2)))
        db.biword_index
    doc_stats :=
      upsert (answer_id, DocType.answer) (answerPairs body).length db.doc_stats }

/-! ### QueryProcessor (src/indexing/indexer.py) -/

/-- `QueryProcessor.optimize_query_terms`: each term paired with its
posting-list length (document frequency), stably sorted ascending by that
frequency, then projected back to the terms. -/
def optimize_query_terms (db : Database) (terms : List Word) : List Word :=
  (List.insertionSort (fun a b : Word × Nat => a.2 ≤ b.2)
      (terms.map (fun t => (t, (get_postings db t).length)))).map Prod.fst

/-- The inner lookup of `QueryProcessor._check_phrase_match`: the
positions list of the first posting row matching `(doc_id, doc_type)`. -/
def find_doc_positions (rows : List Posting) (doc_id : Int) (doc_type : DocType) :
    Option (List Nat) :=
  match rows.find? (fun r => decide (r.doc_id = doc_id ∧ r.doc_type = doc_type)) with
  | some r => some r.positions
  | none => none

/-- `QueryProcessor._check_phrase_match`: some start position `p` of the
first term such that term `i` (1-indexed from the second term) is recorded
at position `p + i` in the same document. -/
def check_phrase_match (db : Database) (tokens : List Word) (doc_id : Int)
    (doc_type : DocType) (first_positions : List Nat) : Bool :=
  first_positions.any (fun start =>
    (enumAux 0 (tokens.drop 1)).all (fun e =>
      match find_doc_positions (get_postings db e.1) doc_id doc_type with
      | some ps => decide (start + (e.2 + 1) ∈ ps)
      | none => false))

/-- `QueryProcessor.phrase_search`: process the phrase through the full
pipeline; with fewer than 2 terms degrade to a single-term lookup (empty
for no terms); otherwise keep the documents of the first term's postings
that pass the consecutive-position check. -/
def phrase_search (db : Database) (phrase : List Char) : List (Int × DocType) :=
  let tokens := process true true phrase
  match tokens with
  | [] => []
  | t0 :: rest =>
    if rest.length = 0 then
      (get_postings db t0).map (fun r => (r.doc_id, r.doc_type))
    else
      ((get_postings db t0).filter
          (fun r => check_phrase_match db tokens r.doc_id r.doc_type r.positions)).map
        (fun r => (r.doc_id, r.doc_type))

/-- Modelled from the spec (section 4.3, `phraseSearch`): a document
matches a multi-term phrase when some recorded position `p` of the first
term in that document has every subsequent term `i` (1-indexed from the
second term) recorded at position `p + i` in the same document. -/
def phrase_match_spec (db : Database) (tokens : List Word) (doc_id : Int)
    (doc_type : DocType) : Prop :=
  ∃ r ∈ get_postings db (tokens.headD []),
    r.doc_id = doc_id ∧ r.doc_type = doc_type ∧
    ∃ p ∈ r.positions,
      ∀ i (hi : i < tokens.length), 1 ≤ i →
        ∃ r2 ∈ get_postings db (tokens.get ⟨i, hi⟩),
          r2.doc_id = doc_id ∧ r2.doc_type = doc_type ∧ p + i ∈ r2.positions

/-- Well-formedness of a store: the inverted index has no duplicate
primary keys.  Every store reachable through `Database.insert_index_term`
(`INSERT OR REPLACE` on the declared primary key) satisfies this. -/
def DBWellFormed (db : Database) : Prop :=
  (db.inverted_index.map Prod.fst).Nodup

/-! ### BM25Ranker (src/ranking/bm25_ranker.py)

The ranker's in-memory caches (`total_docs`, `avg_doc_length`,
`idf_cache`) only memoise pure recomputations over the store, so the
model recomputes them; `math.log` and `int(time.time())` are the
`lnq`/`now` parameters. -/

/-- The construction-time configuration of a `BM25Ranker`, plus the two
abstracted environment inputs. -/
structure RankerParams where
  lnq : ℚ → ℚ
  now : Int
  k1 : ℚ
  b : ℚ

/-- `BM25Ranker._calculate_idf`: `0` when the term has no postings, else
`ln((N - df + 0.5)/(df + 0.5) + 1)`. -/
def calculate_idf (P : RankerParams) (db : Database) (term : Word) : ℚ :=
  let df := (get_postings db term).length
  if df = 0 then 0
  else P.lnq (((get_total_docs db : ℚ) - (df : ℚ) + 1/2) / ((df : ℚ) + 1/2) + 1)

/-- `BM25Ranker._calculate_term_score`: the standard BM25 term
contribution. -/
def calculate_term_score (P : RankerParams) (db : Database) (term : Word)
    (tf : Nat) (doc_length : ℚ) : ℚ :=
  calculate_idf P db term *
    (((tf : ℚ) * (P.k1 + 1)) /
      ((tf : ℚ) + P.k1 * (1 - P.b + P.b * (doc_length / get_avg_doc_length db))))

/-- The term frequency of `term` in `(doc_id, doc_type)`: the frequency of
the first matching posting row, else `0`. -/
def tf_in (db : Database) (term : Word) (doc_id : Int) (doc_type : DocType) : Nat :=
  match (get_postings db term).find?
      (fun r => decide (r.doc_id = doc_id ∧ r.doc_type = doc_type)) with
  | some r => r.freq
  | none => 0

/-- `BM25Ranker.score_document` with the default `title_boost = 5.0`:
title-matching terms of a question accumulate separately and are
multiplied by the boost; the total is the boosted title sum plus the
normal sum.  A document with no doc-stats row defaults to length 1. -/
def score_document (P : RankerParams) (db : Database) (query_terms : List Word)
    (doc_id : Int) (doc_type : DocType) : ℚ :=
  let doc_length : ℚ := ((get_doc_stats db doc_id doc_type).getD 1 : ℚ)
  let title_terms : List Word :=
    if doc_type = DocType.question then
      match get_question db doc_id with
      | some q => if q.title.isEmpty then [] else process true true q.title
      | none => []
    else []
  let r := query_terms.foldl
    (fun (acc : ℚ × ℚ) term =>
      let tf := tf_in db term doc_id doc_type
      if 0 < tf then
        let ts := calculate_term_score P db term tf doc_length
        if doc_type = DocType.question ∧ term ∈ title_terms then
          (acc.1, acc.2 + ts * 5)
        else (acc.1 + ts, acc.2)
      else acc)
    (0, 0)
  r.1 + r.2

/-- The default field weights of `BM25Ranker.rank_documents`. -/
def field_weight : DocType → ℚ
  | DocType.question => 3/2
  | DocType.answer => 1
  | DocType.question_tag => 2

/-- `BM25Ranker.rank_documents` with the default weights: score each
candidate, multiply by its type's weight, sort descending by weighted
score. -/
def rank_documents (P : RankerParams) (db : Database) (query_terms : List Word)
    (candidate_docs : List (Int × DocType)) : List (Int × DocType × ℚ) :=
  List.insertionSort (fun a b : Int × DocType × ℚ => b.2.2 ≤ a.2.2)
    (candidate_docs.map
      (fun c => (c.1, c.2, score_document P db query_terms c.1 c.2 * field_weight c.2)))

/-- The candidate set of `search_and_rank`: every `(doc_id, doc_type)`
appearing in any query term's postings (first-insertion order stands in
for Python's set iteration order). -/
def candidate_docs (db : Database) (query_terms : List Word) : List (Int × DocType) :=
  dedupFirst (query_terms.flatMap
    (fun term => (get_postings db term).map (fun r => (r.doc_id, r.doc_type))))

/-- One step of the `question_scores` loop of `_collect_results`: a
`question`-typed entry is recorded (new key appended, existing key
updated in place with the max); `answer`-typed entries only trigger a
discarded `get_answers` call and `question_tag` entries are skipped
entirely, so both leave the dict unchanged. -/
def question_scores_step (acc : List (Int × ℚ)) (e : Int × DocType × ℚ) :
    List (Int × ℚ) :=
  match e with
  | (doc_id, DocType.question, score) =>
    match lookupA doc_id acc with
    | none => acc ++ [(doc_id, score)]
    | some s0 => upsert doc_id (max s0 score) acc
  | _ => acc

/-- The `question_scores` dict of `_collect_results`: only
`question`-typed entries are kept, reduced to one score per question id by
max. -/
def question_scores (ranked_docs : List (Int × DocType × ℚ)) : List (Int × ℚ) :=
  ranked_docs.foldl question_scores_step []

/-- Rounding to 2 decimal places (`round(x, 2)`; Mathlib's `round` on `ℚ`
stands in for Python's float rounding, which agrees on all the exactly
representable values used here). -/
def round2 (x : ℚ) : ℚ := ((round (x * 100) : ℤ) : ℚ) / 100

/-- The secondary boosting of one top candidate: community boost
`ln(max(|score| + 3, 1)) * 1.5` plus recency boost `3/(1 + ageDays/365)`
for a valid past timestamp, else `0.1`; a missing question keeps its BM25
score as the boosted score.  Returns `(question_id, final_score,
original_bm25)`. -/
def boost_question (P : RankerParams) (db : Database) (e : Int × ℚ) :
    Int × ℚ × ℚ :=
  match get_question db e.1 with
  | some q =>
    let so_boost := P.lnq ((max (q.score.natAbs + 3 : Int) 1 : Int) : ℚ) * (3/2)
    let recency_boost : ℚ :=
      if 0 < q.creation_date ∧ q.creation_date < P.now then
        3 / (1 + (((P.now - q.creation_date : Int) : ℚ) / 86400) / 365)
      else 1/10
    (e.1, e.2 + so_boost + recency_boost, e.2)
  | none => (e.1, e.2, e.2)

/-- The boosted-and-resorted top candidates of `_collect_results`: the top
20 question scores by raw score, boosted, re-sorted descending by boosted
score. -/
def sorted_boosted (P : RankerParams) (db : Database)
    (ranked_docs : List (Int × DocType × ℚ)) : List (Int × ℚ × ℚ) :=
  List.insertionSort (fun a b : Int × ℚ × ℚ => b.2.1 ≤ a.2.1)
    (((List.insertionSort (fun a b : Int × ℚ => b.2 ≤ a.2)
          (question_scores ranked_docs)).take 20).map (boost_question P db))

/-- The tag filter of `_collect_results`: with a non-empty tag, reject a
question whose stored tag string does not contain the tag
(case-insensitive substring). -/
def tag_rejects (tag : Option Word) (q : Question) : Bool :=
  match tag with
  | none => false
  | some tg =>
    if tg.isEmpty then false
    else !(substrB (tg.map Char.toLower) (q.tags.map Char.toLower))

/-- One attached answer of a result (`answer_id`, `body`, `score`,
`is_accepted`). -/
structure ResultAnswer where
  answer_id : Int
  body : Word
  score : Int
  is_accepted : Bool
deriving DecidableEq, Repr

/-- One entry of the list returned by `search_and_rank`. -/
structure SearchResult where
  question_id : Int
  title : Word
  body : Word
  link : Word
  score : Int
  tags : Word
  bm25_score : ℚ
  boosted_score : ℚ
  answers : List ResultAnswer
deriving DecidableEq

/-- The result dict built for one surviving question: both scores rounded
to 2 decimals, with the top 3 answers attached. -/
def mk_result (db : Database) (question_id : Int) (q : Question) (boosted orig : ℚ) :
    SearchResult :=
  { question_id := question_id
    title := q.title
    body := q.body
    link := q.link
    score := q.score
    tags := q.tags
    bm25_score := round2 orig
    boosted_score := round2 boosted
    answers := ((get_answers db question_id).take 3).map
      (fun a => ⟨a.answer_id, a.body, a.score, a.is_accepted⟩) }

/-- The result-collection loop of `_collect_results`: stop when
`max_results` results are collected or the first time an original BM25
score falls below `min_score`; skip missing questions and tag-filter
rejections. -/
def results_loop (db : Database) (min_score : ℚ) (tag : Option Word) :
    List (Int × ℚ × ℚ) → Nat → List SearchResult
  | [], _ => []
  | (question_id, boosted, orig) :: rest, remaining =>
    if remaining = 0 then []
    else if orig < min_score then []
    else
      match get_question db question_id with
      | none => results_loop db min_score tag rest remaining
      | some q =>
        if tag_rejects tag q then results_loop db min_score tag rest remaining
        else mk_result db question_id q boosted orig ::
          results_loop db min_score tag rest (remaining - 1)

/-- `BM25Ranker._collect_results` with the default `max_results = 5`. -/
def collect_results (P : RankerParams) (db : Database)
    (ranked_docs : List (Int × DocType × ℚ)) (min_score : ℚ) (tag : Option Word)
    (max_results : Nat) : List SearchResult :=
  results_loop db min_score tag (sorted_boosted P db ranked_docs) max_results

/-- `BM25Ranker.search_and_rank`: process the query, bail out on empty
terms or candidates, rank the OR-candidates and collect the final
results. -/
def search_and_rank (P : RankerParams) (db : Database) (query : List Char)
    (min_score : ℚ) (tag : Option Word) : List SearchResult :=
  let query_terms := process true true query
  if query_terms.isEmpty then []
  else
    let cands := candidate_docs db query_terms
    if cands.isEmpty then []
    else collect_results P db (rank_documents P db query_terms cands) min_score tag 5

/-! ### Auxiliary predicates and concrete stores used by the theorems -/

/-- A list of keyed writes is self-consistent when any two writes to the
same key carry the same value (true of each single `index_question` /
`index_answer` call). -/
def SelfCons {κ ν : Type} (ws : List (κ × ν)) : Prop :=
  ∀ e1 ∈ ws, ∀ e2 ∈ ws, e1.1 = e2.1 → e1.2 = e2.2

/-- The posting-entry invariant: the stored frequency is the length of the
positions list, and the positions are strictly increasing non-negative
integers. -/
def good_entry (e : Word × (Nat × List Nat)) : Prop :=
  e.2.1 = e.2.2.length ∧ List.Pairwise (fun a b : Nat => a < b) e.2.2 ∧
    ∀ p ∈ e.2.2, 0 ≤ p

/-- Ranker parameters used by the concrete evaluations: a zero logarithm,
time zero, and the default `k1 = 1.5`, `b = 0.75`. -/
def P0 : RankerParams := ⟨fun _ => 0, 0, 3/2, 3/4⟩

/-- A question row with title `api` and no tags or timestamps. -/
def q0 : Question := ⟨"api".data, [], [], 0, 0, []⟩

/-- A store holding question 1 (title `api`), indexed. -/
def dbW : Database :=
  { index_question emptyDB 1 "api".data [] [] with questions := [(1, q0)] }

/-- The single result `search_and_rank P0 dbW "api" 0 none` produces. -/
def r0 : SearchResult := ⟨1, "api".data, [], [], 0, [], 0, 1/10, []⟩

/-- A store where the only posting for `api` is answer-typed (answer 10 of
question 1): question 1 itself was never indexed. -/
def dbA : Database :=
  { index_answer emptyDB 10 1 "api".data with
    questions := [(1, q0)], answers := [⟨10, 1, [], 0, false⟩] }

/-- A store where question 1 and its answer 10 are both indexed for
`api`. -/
def dbB : Database :=
  { index_answer (index_question emptyDB 1 "api".data [] []) 10 1 "api".data with
    questions := [(1, q0)], answers := [⟨10, 1, [], 0, false⟩] }

/-- A two-term store used to exercise the phrase machinery: `rest api`
occurs consecutively in question 1. -/
def dbP : Database := index_question emptyDB 1 "rest api".data [] []

/-- The single result `search_and_rank P0 dbB "api" 0 none` produces
(question 1 with its answer 10 attached). -/
def r1 : SearchResult := ⟨1, "api".data, [], [], 0, [], 0, 1/10, [⟨10, [], 0, false⟩]⟩

/-! ## Association-map lemmas -/

theorem lookupA_upsert {κ ν : Type} [DecidableEq κ] (k : κ) (v : ν) :
    ∀ m : List (κ × ν), lookupA k (upsert k v m) = some v
  | [] => by simp [upsert, lookupA]
  | (k1, v1) :: rest => by
    by_cases h : k1 = k
    · simp [upsert, h, lookupA]
    · simp [upsert, h, lookupA, lookupA_upsert k v rest]

theorem upsert_of_lookupA {κ ν : Type} [DecidableEq κ] {k : κ} {v : ν} :
    ∀ {m : List (κ × ν)}, lookupA k m = some v → upsert k v m = m
  | [], h => by simp [lookupA] at h
  | (k1, v1) :: rest, h => by
    by_cases hk : k1 = k
    · simp only [lookupA, if_pos hk, Option.some.injEq] at h
      simp [upsert, hk, h]
    · simp only [lookupA, if_neg hk] at h
      simp [upsert, hk, upsert_of_lookupA h]

theorem lookupA_upsert_ne {κ ν : Type} [DecidableEq κ] {k1 k : κ} (v : ν)
    (hne : k1 ≠ k) : ∀ m : List (κ × ν), lookupA k1 (upsert k v m) = lookupA k1 m
  | [] => by simp [upsert, lookupA, Ne.symm hne]
  | (k2, v2) :: rest => by
    by_cases hk : k2 = k
    · subst hk
      simp [upsert, lookupA, Ne.symm hne]
    · by_cases hk2 : k2 = k1
      · simp [upsert, hk, lookupA, hk2, hne]
      · simp [upsert, hk, lookupA, hk2, lookupA_upsert_ne v hne rest]

theorem applyW_append {κ ν : Type} [DecidableEq κ] (a b : List (κ × ν))
    (m : List (κ × ν)) : applyW (a ++ b) m = applyW b (applyW a m) := by
  simp [applyW, List.foldl_append]

theorem lookupA_applyW {κ ν : Type} [DecidableEq κ] {k : κ} {v : ν} :
    ∀ (ws : List (κ × ν)) (m : List (κ × ν)),
      (∀ e ∈ ws, e.1 = k → e.2 = v) → lookupA k m = some v →
      lookupA k (applyW ws m) = some v
  | [], m, _, hm => hm
  | e :: ws, m, hw, hm => by
    show lookupA k (applyW ws (upsert e.1 e.2 m)) = some v
    by_cases hk : e.1 = k
    · have hv : e.2 = v := hw e (by simp) hk
      refine lookupA_applyW ws _ (fun e2 h2 => hw e2 (by simp [h2])) ?_
      rw [hk, hv] at *
      exact lookupA_upsert k v m
    · refine lookupA_applyW ws _ (fun e2 h2 => hw e2 (by simp [h2])) ?_
      rw [lookupA_upsert_ne e.2 (fun h => hk h.symm) m]
      exact hm

theorem applyW_idem {κ ν : Type} [DecidableEq κ] :
    ∀ (ws : List (κ × ν)), SelfCons ws →
      ∀ m : List (κ × ν), applyW ws (applyW ws m) = applyW ws m
  | [], _, m => rfl
  | e :: ws, hsc, m => by
    have hmem : e ∈ e :: ws := by simp
    have htail : SelfCons ws := fun e1 h1 e2 h2 =>
      hsc e1 (by simp [h1]) e2 (by simp [h2])
    show applyW ws (upsert e.1 e.2 (applyW ws (upsert e.1 e.2 m)))
      = applyW ws (upsert e.1 e.2 m)
    have h1 : lookupA e.1 (upsert e.1 e.2 m) = some e.2 := lookupA_upsert _ _ _
    have h2 : lookupA e.1 (applyW ws (upsert e.1 e.2 m)) = some e.2 :=
      lookupA_applyW ws _ (fun e2 h2 hk => (hsc e2 (by simp [h2]) e hmem hk).symm ▸ rfl) h1
    rw [upsert_of_lookupA h2]
    exact applyW_idem ws htail _

theorem selfCons_of_nodup_keys {κ ν : Type} [DecidableEq κ] {ws : List (κ × ν)}
    (h : (ws.map Prod.fst).Nodup) : SelfCons ws := fun e1 h1 e2 h2 hk => by
  rw [List.inj_on_of_nodup_map h h1 h2 hk]

theorem selfCons_append {κ ν : Type} {A B : List (κ × ν)} (hA : SelfCons A)
    (hB : SelfCons B) (hAB : ∀ e1 ∈ A, ∀ e2 ∈ B, e1.1 ≠ e2.1) :
    SelfCons (A ++ B) := by
  intro e1 h1 e2 h2 hk
  rcases List.mem_append.1 h1 with hA1 | hB1 <;>
    rcases List.mem_append.1 h2 with hA2 | hB2
  · exact hA e1 hA1 e2 hA2 hk
  · exact absurd hk (hAB e1 hA1 e2 hB2)
  · exact absurd hk.symm (hAB e2 hA2 e1 hB1)
  · exact hB e1 hB1 e2 hB2 hk

theorem dedupFirst_nodup {α : Type} [DecidableEq α] : ∀ l : List α,
    (dedupFirst l).Nodup
  | [] => List.nodup_nil
  | a :: rest => by
    refine List.nodup_cons.2 ⟨?_, ?_⟩
    · intro hmem
      have := (List.mem_filter.1 hmem).2
      simp at this
    · exact (dedupFirst_nodup rest).filter _

theorem mem_dedupFirst {α : Type} [DecidableEq α] {a : α} : ∀ {l : List α},
    a ∈ dedupFirst l ↔ a ∈ l
  | [] => Iff.rfl
  | b :: rest => by
    show a ∈ b :: (dedupFirst rest).filter _ ↔ _
    by_cases hab : a = b
    · simp [hab]
    · simp only [List.mem_cons, hab, false_or]
      rw [List.mem_filter]
      simp [hab, mem_dedupFirst]

theorem termEntriesOf_keys (pairs : List (Word × Nat)) :
    (termEntriesOf pairs).map Prod.fst = dedupFirst (pairs.map Prod.fst) := by
  simp [termEntriesOf, List.map_map, Function.comp_def]

theorem termEntriesOf_keys_nodup (pairs : List (Word × Nat)) :
    ((termEntriesOf pairs).map Prod.fst).Nodup := by
  rw [termEntriesOf_keys]
  exact dedupFirst_nodup _

theorem keyed_writes_nodup {ws : List (Word × (Nat × List Nat))}
    (h : (ws.map Prod.fst).Nodup) (doc_id : Int) (ty : DocType) :
    ((ws.map (fun e => ((e.1, doc_id, ty), e.2))).map Prod.fst).Nodup := by
  have h2 : (ws.map (fun e => ((e.1, doc_id, ty), e.2))).map Prod.fst
      = (ws.map Prod.fst).map (fun t => (t, doc_id, ty)) := by
    simp [List.map_map, Function.comp]
  rw [h2]
  refine h.map ?_
  intro t1 t2 ht
  simpa using ht

theorem tag_writes_val {tags : List Word} :
    ∀ e ∈ tag_writes tags, e.2 = ((1 : Nat), [(0 : Nat)]) := by
  intro e he
  simp only [tag_writes, List.mem_map] at he
  obtain ⟨tg, _, rfl⟩ := he
  rfl

/-! ## C5: doc-stats records the processed-pair count -/

/-- C5: for a question, the indexed full text is the title duplicated
twice followed by the body and the recorded `doc_length` equals the
number of `(token, position)` pairs `process_with_positions` produces for
it; for an answer, the recorded `doc_length` equals the pair count over
the answer body. -/
theorem doc_length_eq_pair_count (db : Database) (qid : Int) (title body : Word)
    (tags : List Word) (aid aqid : Int) (abody : Word) :
    lookupA (qid, DocType.question) (index_question db qid title body tags).doc_stats
      = some (process_with_positions true true
          (title ++ ' ' :: title ++ ' ' :: body)).length ∧
    lookupA (aid, DocType.answer) (index_answer db aid aqid abody).doc_stats
      = some (process_with_positions true true abody).length := by
  exact ⟨lookupA_upsert _ _ _, lookupA_upsert _ _ _⟩

/-! ## C7: indexing is idempotent -/

theorem applyW_pair_idem {κ ν : Type} [DecidableEq κ] (A B : List (κ × ν))
    (m : List (κ × ν)) (h : SelfCons (A ++ B)) :
    applyW B (applyW A (applyW B (applyW A m))) = applyW B (applyW A m) := by
  have h2 := applyW_idem (A ++ B) h m
  simp only [applyW_append] at h2
  exact h2

/-- The inverted-index writes of one `index_question` call are
self-consistent: term keys are distinct, tag writes all carry the same
value, and term and tag keys differ in their `doc_type`. -/
theorem question_writes_selfCons (title body : Word) (tags : List Word) (qid : Int) :
    SelfCons (((question_term_writes title body).map
        (fun e => ((e.1, qid, DocType.question), e.2))) ++
      ((tag_writes tags).map
        (fun e => ((e.1, qid, DocType.question_tag), e.2)))) := by
  refine selfCons_append
    (selfCons_of_nodup_keys (keyed_writes_nodup (termEntriesOf_keys_nodup _) qid _))
    ?_ ?_
  · intro e1 h1 e2 h2 _
    simp only [List.mem_map] at h1 h2
    obtain ⟨t1, ht1, rfl⟩ := h1
    obtain ⟨t2, ht2, rfl⟩ := h2
    rw [tag_writes_val t1 ht1, tag_writes_val t2 ht2]
  · intro e1 h1 e2 h2 hk
    simp only [List.mem_map] at h1 h2
    obtain ⟨t1, _, rfl⟩ := h1
    obtain ⟨t2, _, rfl⟩ := h2
    simp at hk

/-- C7: indexing a question or an answer a second time with exactly the
same arguments leaves the postings, biword postings and doc-stats
unchanged (upsert semantics on the composite keys, no accumulation). -/
theorem index_idempotent (db : Database) (qid : Int) (title body : Word)
    (tags : List Word) (aid aqid : Int) (abody : Word) :
    index_question (index_question db qid title body tags) qid title body tags
        = index_question db qid title body tags ∧
      index_answer (index_answer db aid aqid abody) aid aqid abody
        = index_answer db aid aqid abody := by
  constructor
  · cases db with
    | mk inv bi ds qs ans =>
      simp only [index_question]
      congr 1
      · exact applyW_pair_idem _ _ _ (question_writes_selfCons title body tags qid)
      · exact applyW_idem _
          (selfCons_of_nodup_keys (keyed_writes_nodup (termEntriesOf_keys_nodup _) qid _)) _
      · exact upsert_of_lookupA (lookupA_upsert _ _ _)
  · cases db with
    | mk inv bi ds qs ans =>
      simp only [index_answer]
      congr 1
      · exact applyW_idem _
          (selfCons_of_nodup_keys (keyed_writes_nodup (termEntriesOf_keys_nodup _) aid _)) _
      · exact applyW_idem _
          (selfCons_of_nodup_keys (keyed_writes_nodup (termEntriesOf_keys_nodup _) aid _)) _
      · exact upsert_of_lookupA (lookupA_upsert _ _ _)

/-! ## Position lemmas for `process_with_positions` and `enumerate` -/

theorem pwpAux_map_fst (rs st : Bool) (toks : List Word) : ∀ p : Nat,
    (pwpAux rs st p toks).map Prod.fst =
      (if st then (if rs then remove_stopwords toks else toks).map stem
       else (if rs then remove_stopwords toks else toks)) := by
  induction toks with
  | nil => intro p; cases rs <;> cases st <;> simp [pwpAux, remove_stopwords]
  | cons tok rest ih =>
    intro p
    by_cases hm : tok ∈ stopwords <;> cases rs <;> cases st <;>
      simp [pwpAux, remove_stopwords, List.filter_cons, hm, ih]

theorem pwpAux_mem (rs st : Bool) (toks : List Word) : ∀ (p0 : Nat)
    (e : Word × Nat), e ∈ pwpAux rs st p0 toks →
      p0 ≤ e.2 ∧ ∃ raw, toks[e.2 - p0]? = some raw ∧
        e.1 = (if st then stem raw else raw) ∧ (rs = true → raw ∉ stopwords) := by
  induction toks with
  | nil => intro p0 e h; simp [pwpAux] at h
  | cons tok rest ih =>
    intro p0 e h
    unfold pwpAux at h
    by_cases hcond : (rs && decide (tok ∈ stopwords)) = true
    · rw [if_pos hcond] at h
      obtain ⟨hp, raw, hraw, he1, hrs⟩ := ih (p0 + 1) e h
      refine ⟨by omega, raw, ?_, he1, hrs⟩
      have hidx : e.2 - p0 = (e.2 - (p0 + 1)) + 1 := by omega
      rw [hidx]
      simpa using hraw
    · rw [if_neg hcond] at h
      rcases List.mem_cons.1 h with he | he
      · subst he
        refine ⟨le_refl _, tok, ?_, rfl, ?_⟩
        · simp
        · intro hrs hmem
          rw [hrs] at hcond
          simp [hmem] at hcond
      · obtain ⟨hp, raw, hraw, he1, hrs⟩ := ih (p0 + 1) e he
        refine ⟨by omega, raw, ?_, he1, hrs⟩
        have hidx : e.2 - p0 = (e.2 - (p0 + 1)) + 1 := by omega
        rw [hidx]
        simpa using hraw

theorem pwpAux_pairwise (rs st : Bool) (toks : List Word) : ∀ p0 : Nat,
    List.Pairwise (fun a b : Word × Nat => a.2 < b.2) (pwpAux rs st p0 toks) := by
  induction toks with
  | nil => intro p0; simp [pwpAux]
  | cons tok rest ih =>
    intro p0
    unfold pwpAux
    by_cases hcond : (rs && decide (tok ∈ stopwords)) = true
    · rw [if_pos hcond]; exact ih _
    · rw [if_neg hcond]
      refine List.pairwise_cons.2 ⟨?_, ih _⟩
      intro e he
      have := (pwpAux_mem rs st rest (p0 + 1) e he).1
      show p0 < e.2
      omega

theorem enumAux_mem {α : Type} (l : List α) : ∀ (i : Nat) (e : α × Nat),
    e ∈ enumAux i l → i ≤ e.2 := by
  induction l with
  | nil => intro i e h; simp [enumAux] at h
  | cons a rest ih =>
    intro i e h
    rcases List.mem_cons.1 h with he | he
    · subst he; exact le_refl _
    · have := ih (i + 1) e he
      omega

theorem enumAux_pairwise {α : Type} (l : List α) : ∀ i : Nat,
    List.Pairwise (fun a b : α × Nat => a.2 < b.2) (enumAux i l) := by
  induction l with
  | nil => intro i; simp [enumAux]
  | cons a rest ih =>
    intro i
    refine List.pairwise_cons.2 ⟨?_, ih _⟩
    intro e he
    have := enumAux_mem rest (i + 1) e he
    show i < e.2
    omega

/-! ## C9: `process` and `process_with_positions` agree -/

/-- C9: the first components of `process_with_positions` are exactly
`process`; the emitted positions are strictly increasing; and each
emitted pair's position indexes, in the raw `tokenize` sequence, the very
token the pair was produced from (a non-stopword when removal is on). -/
theorem process_positions_refinement (rs st : Bool) (text : List Char) :
    (process_with_positions rs st text).map Prod.fst = process rs st text ∧
    List.Pairwise (fun a b : Nat => a < b)
      ((process_with_positions rs st text).map Prod.snd) ∧
    ∀ e ∈ process_with_positions rs st text,
      ∃ raw, (tokenize text)[e.2]? = some raw ∧
        e.1 = (if st then stem raw else raw) ∧ (rs = true → raw ∉ stopwords) := by
  refine ⟨pwpAux_map_fst rs st (tokenize text) 0, ?_, ?_⟩
  · rw [List.pairwise_map]
    exact pwpAux_pairwise rs st (tokenize text) 0
  · intro e he
    obtain ⟨_, raw, hraw, h1, h2⟩ := pwpAux_mem rs st (tokenize text) 0 e he
    refine ⟨raw, ?_, h1, h2⟩
    simpa using hraw

/-- Witness for C9 at `text = "the cats"`, whose only emitted pair is
`("cat", 1)`: position 1 indexes the raw token `cats` the pair came
from. -/
theorem process_positions_refinement_witness :
    ∃ raw, (tokenize "the cats".data)[(1 : Nat)]? = some raw ∧
      "cat".data = (if true then stem raw else raw) ∧
      (true = true → raw ∉ stopwords) :=
  (process_positions_refinement true true "the cats".data).2.2
    ("cat".data, 1) (by decide)

/-! ## C6: every written posting satisfies the frequency/positions invariant -/

theorem termEntriesOf_good (pairs : List (Word × Nat))
    (h : List.Pairwise (fun a b : Word × Nat => a.2 < b.2) pairs) :
    ∀ e ∈ termEntriesOf pairs, good_entry e := by
  intro e he
  simp only [termEntriesOf, List.mem_map] at he
  obtain ⟨t, _, rfl⟩ := he
  refine ⟨rfl, ?_, fun p _ => Nat.zero_le p⟩
  unfold positionsOf
  rw [List.pairwise_map]
  exact List.Pairwise.sublist (List.filter_sublist pairs) h

/-- C6: every posting written by the Indexer — term postings and biword
postings for questions and answers, and tag postings — stores a frequency
equal to the length of its positions list, and its positions are strictly
increasing non-negative integers. -/
theorem posting_writes_invariant (title body : Word) (tags : List Word)
    (abody : Word) :
    (∀ e ∈ question_term_writes title body, good_entry e) ∧
    (∀ e ∈ question_biword_writes title body, good_entry e) ∧
    (∀ e ∈ tag_writes tags, good_entry e) ∧
    (∀ e ∈ answer_term_writes abody, good_entry e) ∧
    (∀ e ∈ answer_biword_writes abody, good_entry e) := by
  refine ⟨termEntriesOf_good _ (pwpAux_pairwise true true _ 0),
    termEntriesOf_good _ (enumAux_pairwise _ 0), ?_,
    termEntriesOf_good _ (pwpAux_pairwise true true _ 0),
    termEntriesOf_good _ (enumAux_pairwise _ 0)⟩
  intro e he
  have hv := tag_writes_val e he
  refine ⟨?_, ?_, ?_⟩ <;> simp [hv]

/-- Witness for C6: the term posting written for `rest` when indexing a
question titled `rest` has frequency 2 with strictly increasing positions
`[0, 1]` (the title is counted twice). -/
theorem posting_writes_invariant_witness :
    good_entry ("rest".data, ((2 : Nat), [0, 1])) :=
  (posting_writes_invariant "rest".data [] [] []).1 _ (by decide)

/-! ## Suffix lemmas for the stemmer -/

theorem isPrefixB_iff : ∀ s w : Word, isPrefixB s w = true ↔ ∃ t, w = s ++ t
  | [], w => by simp [isPrefixB]
  | a :: s, [] => by simp [isPrefixB]
  | a :: s, b :: w => by
    simp only [isPrefixB, Bool.and_eq_true, decide_eq_true_eq, isPrefixB_iff s w,
      List.cons_append, List.cons.injEq]
    constructor
    · rintro ⟨rfl, t, rfl⟩; exact ⟨t, rfl, rfl⟩
    · rintro ⟨t, rfl, rfl⟩; exact ⟨rfl, t, rfl⟩

theorem isSuffixB_iff (s w : Word) : isSuffixB s w = true ↔ ∃ p, w = p ++ s := by
  unfold isSuffixB
  rw [isPrefixB_iff]
  constructor
  · rintro ⟨t, ht⟩
    refine ⟨t.reverse, ?_⟩
    have h2 := congrArg List.reverse ht
    simpa using h2
  · rintro ⟨p, rfl⟩
    exact ⟨p.reverse, by simp⟩

theorem dropRight_append (p s : Word) (n : Nat) (h : n ≤ s.length) :
    dropRight n (p ++ s) = p ++ s.take (s.length - n) := by
  unfold dropRight
  rw [List.length_append, List.take_append_eq_append_take]
  congr 1
  · refine List.take_of_length_le ?_
    omega
  · congr 1
    omega

/-! ## C4: the plural-stripping step of `stem` (corrected: `sses → ss`) -/

/-- C4 counterexample: the claim `sses → s` would send `classes` (that
is, `cla ++ sses`) to `clas`, but the code's plural step (`word[:-2]`)
sends it to `class`. -/
theorem stem_plural_sses_counterexample :
    stem_step1 ("cla".data ++ "sses".data) ≠ "cla".data ++ "s".data ∧
    stem_step1 "classes".data = "class".data ∧
    stem "classes".data = "class".data := by decide

/-- C4 (amended): for a word of length at least 3, the plural step
rewrites a trailing `sses` to `ss` (not to `s`), rewrites `ies` to `i`,
leaves a word ending in `ss` unchanged, and drops the trailing `s` of any
other word ending in `s`; `stem` returns words under 3 characters
unchanged. -/
theorem stem_plural_step (w : Word) :
    (w.length < 3 → stem w = w) ∧
    (3 ≤ w.length →
      (∀ p, w = p ++ "sses".data → stem_step1 w = p ++ "ss".data) ∧
      (∀ p, w = p ++ "ies".data → stem_step1 w = p ++ "i".data) ∧
      (∀ p, w = p ++ "ss".data → stem_step1 w = w) ∧
      (∀ p, w = p ++ "s".data →
        isSuffixB "sses".data w = false → isSuffixB "ies".data w = false →
        isSuffixB "ss".data w = false → stem_step1 w = p)) := by
  constructor
  · intro h
    simp [stem, h]
  · intro _
    refine ⟨?_, ?_, ?_, ?_⟩
    · rintro p rfl
      have h1 : isSuffixB "sses".data (p ++ "sses".data) = true :=
        (isSuffixB_iff _ _).2 ⟨p, rfl⟩
      unfold stem_step1
      rw [if_pos h1, dropRight_append p _ 2 (by decide)]
      rfl
    · rintro p rfl
      have h1 : isSuffixB "sses".data (p ++ "ies".data) = false := by
        show isPrefixB "sses".data.reverse (p ++ "ies".data).reverse = false
        rw [List.reverse_append]
        rfl
      have h2 : isSuffixB "ies".data (p ++ "ies".data) = true :=
        (isSuffixB_iff _ _).2 ⟨p, rfl⟩
      unfold stem_step1
      rw [h1, if_neg (by simp), if_pos h2, dropRight_append p _ 3 (by decide)]
      simp
    · rintro p rfl
      have h1 : isSuffixB "sses".data (p ++ "ss".data) = false := by
        show isPrefixB "sses".data.reverse (p ++ "ss".data).reverse = false
        rw [List.reverse_append]
        rfl
      have h2 : isSuffixB "ies".data (p ++ "ss".data) = false := by
        show isPrefixB "ies".data.reverse (p ++ "ss".data).reverse = false
        rw [List.reverse_append]
        rfl
      have h3 : isSuffixB "ss".data (p ++ "ss".data) = true :=
        (isSuffixB_iff _ _).2 ⟨p, rfl⟩
      unfold stem_step1
      rw [h1, if_neg (by simp), h2, if_neg (by simp), if_pos h3]
    · rintro p rfl h1 h2 h3
      have h4 : isSuffixB "s".data (p ++ "s".data) = true :=
        (isSuffixB_iff _ _).2 ⟨p, rfl⟩
      unfold stem_step1
      rw [h1, if_neg (by simp), h2, if_neg (by simp), h3, if_neg (by simp),
        if_pos h4, dropRight_append p _ 1 (by decide)]
      simp

/-- Witness for C4 at `classes = cla ++ sses`: the plural step yields
`cla ++ ss = class`. -/
theorem stem_plural_step_witness :
    stem_step1 "classes".data = "cla".data ++ "ss".data :=
  ((stem_plural_step "classes".data).2 (by decide)).1 "cla".data (by decide)

/-! ## C8: query-term optimization sorts by ascending document frequency -/

/-- C8: `optimize_query_terms` returns a permutation of the input terms
whose document-frequency sequence (posting-list length in the store) is
non-decreasing — rarest term first, ties in either order. -/
theorem optimize_query_terms_sorted (db : Database) (terms : List Word) :
    List.Pairwise (fun a b : Word =>
        (get_postings db a).length ≤ (get_postings db b).length)
      (optimize_query_terms db terms) ∧
    (optimize_query_terms db terms).Perm terms := by
  haveI : IsTotal (Word × Nat) (fun a b => a.2 ≤ b.2) :=
    ⟨fun a b => Nat.le_total a.2 b.2⟩
  haveI : IsTrans (Word × Nat) (fun a b => a.2 ≤ b.2) :=
    ⟨fun _ _ _ h1 h2 => le_trans h1 h2⟩
  have hsorted := List.sorted_insertionSort (fun a b : Word × Nat => a.2 ≤ b.2)
    (terms.map (fun t => (t, (get_postings db t).length)))
  have hperm := List.perm_insertionSort (fun a b : Word × Nat => a.2 ≤ b.2)
    (terms.map (fun t => (t, (get_postings db t).length)))
  have hmem : ∀ e ∈ List.insertionSort (fun a b : Word × Nat => a.2 ≤ b.2)
      (terms.map (fun t => (t, (get_postings db t).length))),
      e.2 = (get_postings db e.1).length := by
    intro e he
    rcases List.mem_map.1 (hperm.mem_iff.1 he) with ⟨t, _, rfl⟩
    rfl
  constructor
  · unfold optimize_query_terms
    rw [List.pairwise_map]
    refine hsorted.imp_of_mem ?_
    intro a b ha hb hr
    have h1 := hmem a ha
    have h2 := hmem b hb
    exact h1 ▸ h2 ▸ hr
  · unfold optimize_query_terms
    have heq : (terms.map (fun t => (t, (get_postings db t).length))).map Prod.fst
        = terms := by
      simp [List.map_map, Function.comp_def]
    conv_rhs => rw [← heq]
    exact hperm.map Prod.fst

/-! ## Lemmas for phrase search -/

theorem forall_mem_enumAux {α : Type} (P : α × Nat → Prop) :
    ∀ (l : List α) (k : Nat),
      (∀ e ∈ enumAux k l, P e) ↔ ∀ j (hj : j < l.length), P (l.get ⟨j, hj⟩, k + j)
  | [], k => by simp [enumAux]
  | b :: rest, k => by
    rw [show enumAux k (b :: rest) = (b, k) :: enumAux (k + 1) rest from rfl]
    constructor
    · intro h j hj
      cases j with
      | zero => simpa using h (b, k) (by simp)
      | succ m =>
        have hm : m < rest.length := by simpa using hj
        have h2 := (forall_mem_enumAux P rest (k + 1)).1
          (fun e he => h e (by simp [he])) m hm
        have heq : k + 1 + m = k + (m + 1) := by omega
        rw [heq] at h2
        simpa using h2
    · intro h e he
      rcases List.mem_cons.1 he with rfl | he2
      · simpa using h 0 (by simp)
      · refine (forall_mem_enumAux P rest (k + 1)).2 ?_ e he2
        intro m hm
        have h2 := h (m + 1) (by simpa using Nat.succ_lt_succ hm)
        have heq : k + (m + 1) = k + 1 + m := by omega
        rw [heq] at h2
        simpa using h2

theorem get_postings_key_nodup {db : Database} (hwf : DBWellFormed db)
    (term : Word) :
    ((get_postings db term).map (fun r => (r.doc_id, r.doc_type))).Nodup := by
  unfold get_postings
  rw [List.map_map]
  have hnd : ((db.inverted_index.filter
      (fun e => decide (e.1.1 = term))).map Prod.fst).Nodup :=
    hwf.sublist ((List.filter_sublist _).map Prod.fst)
  refine List.Nodup.map_on ?_ hnd.of_map
  intro e1 h1 e2 h2 heq
  have ht1 : e1.1.1 = term := by simpa using (List.mem_filter.1 h1).2
  have ht2 : e2.1.1 = term := by simpa using (List.mem_filter.1 h2).2
  refine List.inj_on_of_nodup_map hnd h1 h2 ?_
  simp only [Function.comp_def, Prod.mk.injEq] at heq
  rw [Prod.ext_iff, Prod.ext_iff]
  exact ⟨ht1.trans ht2.symm, heq.1, heq.2⟩

theorem find?_key {d : Int} {t : DocType} {r : Posting} : ∀ (rows : List Posting),
    ((rows.map (fun r2 => (r2.doc_id, r2.doc_type))).Nodup) → r ∈ rows →
    r.doc_id = d → r.doc_type = t →
    rows.find? (fun r2 => decide (r2.doc_id = d ∧ r2.doc_type = t)) = some r
  | [], _, hr, _, _ => by simp at hr
  | r1 :: rest, hnd, hr, hd, ht => by
    simp only [List.map_cons, List.nodup_cons] at hnd
    by_cases hp : (r1.doc_id = d ∧ r1.doc_type = t)
    · rw [List.find?_cons_of_pos _ (by simpa using hp)]
      rcases List.mem_cons.1 hr with rfl | hr2
      · rfl
      · exfalso
        refine hnd.1 ?_
        refine List.mem_map.2 ⟨r, hr2, ?_⟩
        rw [hd, ht, hp.1, hp.2]
    · rw [List.find?_cons_of_neg _ (by simpa using hp)]
      rcases List.mem_cons.1 hr with rfl | hr2
      · exact absurd ⟨hd, ht⟩ hp
      · exact find?_key rest hnd.2 hr2 hd ht

theorem find_doc_positions_some {rows : List Posting} {d : Int} {t : DocType}
    {ps : List Nat} (h : find_doc_positions rows d t = some ps) :
    ∃ r2 ∈ rows, r2.doc_id = d ∧ r2.doc_type = t ∧ ps = r2.positions := by
  unfold find_doc_positions at h
  rcases hf : rows.find? (fun r => decide (r.doc_id = d ∧ r.doc_type = t)) with _ | r2
  · rw [hf] at h; exact Option.noConfusion h
  · rw [hf] at h
    have hp := List.find?_some hf
    simp only [decide_eq_true_eq] at hp
    injection h with h3
    exact ⟨r2, List.mem_of_find?_eq_some hf, hp.1, hp.2, h3.symm⟩

/-! ## C2: phrase search is exact consecutive-position matching -/

/-- C2: `phrase_search` degrades to the empty set for an empty processed
phrase and to a single-term posting lookup for one term; for two or more
terms (and a store whose inverted index has no duplicate primary keys) it
returns exactly the documents satisfying `phrase_match_spec`: some
recorded position `p` of the first term such that every subsequent term
`i` is recorded at position `p + i` in the same document. -/
theorem phrase_search_spec (db : Database) (phrase : List Char)
    (hwf : DBWellFormed db) :
    (process true true phrase = [] → phrase_search db phrase = []) ∧
    (∀ t0, process true true phrase = [t0] →
      phrase_search db phrase
        = (get_postings db t0).map (fun r => (r.doc_id, r.doc_type))) ∧
    (2 ≤ (process true true phrase).length →
      ∀ d t, ((d, t) ∈ phrase_search db phrase ↔
        phrase_match_spec db (process true true phrase) d t)) := by
  refine ⟨?_, ?_, ?_⟩
  · intro h
    simp [phrase_search, h]
  · intro t0 h
    simp [phrase_search, h]
  · intro hlen d t
    rcases htoks : process true true phrase with _ | ⟨t0, tail⟩
    · rw [htoks] at hlen; simp at hlen
    rcases tail with _ | ⟨t1, ts⟩
    · rw [htoks] at hlen; simp at hlen
    have hps : phrase_search db phrase
        = ((get_postings db t0).filter
            (fun r => check_phrase_match db (t0 :: t1 :: ts) r.doc_id r.doc_type
              r.positions)).map (fun r => (r.doc_id, r.doc_type)) := by
      simp [phrase_search, htoks]
    rw [hps]
    constructor
    · intro hmem
      rcases List.mem_map.1 hmem with ⟨r, hrf, hpair⟩
      rcases List.mem_filter.1 hrf with ⟨hr_mem, hchk⟩
      simp only [Prod.mk.injEq] at hpair
      obtain ⟨hd, ht⟩ := hpair
      subst hd
      subst ht
      refine ⟨r, hr_mem, rfl, rfl, ?_⟩
      unfold check_phrase_match at hchk
      rcases List.any_eq_true.1 hchk with ⟨p, hp_mem, hall⟩
      refine ⟨p, hp_mem, ?_⟩
      intro i hi h1i
      rcases i with _ | j
      · omega
      have hj : j < (t1 :: ts).length := by simpa using hi
      have hallj := (forall_mem_enumAux
          (fun e => (match find_doc_positions (get_postings db e.1)
              r.doc_id r.doc_type with
            | some ps => decide (p + (e.2 + 1) ∈ ps)
            | none => false) = true) (t1 :: ts) 0).1
        (List.all_eq_true.1 hall) j hj
      rcases hfd : find_doc_positions
          (get_postings db ((t1 :: ts).get ⟨j, hj⟩)) r.doc_id r.doc_type
        with _ | ps
      · rw [hfd] at hallj; exact absurd hallj (by simp)
      · rw [hfd] at hallj
        simp only [decide_eq_true_eq] at hallj
        obtain ⟨r2, hr2_mem, hd2, ht2, hps2⟩ := find_doc_positions_some hfd
        refine ⟨r2, ?_, hd2, ht2, ?_⟩
        · simpa using hr2_mem
        · rw [← hps2]
          simpa using hallj
    · rintro ⟨r, hr_mem, hd, ht, p, hp_mem, hall⟩
      subst hd
      subst ht
      refine List.mem_map.2 ⟨r, List.mem_filter.2 ⟨hr_mem, ?_⟩, rfl⟩
      unfold check_phrase_match
      refine List.any_eq_true.2 ⟨p, hp_mem, ?_⟩
      refine List.all_eq_true.2 ?_
      refine (forall_mem_enumAux
          (fun e => (match find_doc_positions (get_postings db e.1)
              r.doc_id r.doc_type with
            | some ps => decide (p + (e.2 + 1) ∈ ps)
            | none => false) = true) (t1 :: ts) 0).2 ?_
      intro j hj
      obtain ⟨r2, hr2_mem, hd2, ht2, hpos⟩ :=
        hall (j + 1) (by simpa using Nat.succ_lt_succ hj) (by omega)
      have hr2m : r2 ∈ get_postings db ((t1 :: ts).get ⟨j, hj⟩) := by
        simpa using hr2_mem
      have hfd : find_doc_positions (get_postings db ((t1 :: ts).get ⟨j, hj⟩))
          r.doc_id r.doc_type = some r2.positions := by
        unfold find_doc_positions
        rw [find?_key _ (get_postings_key_nodup hwf _) hr2m hd2 ht2]
      rw [hfd]
      simpa using hpos

/-- Witness for C2 on a concrete well-formed store and the two-term
phrase `rest api`. -/
theorem phrase_search_spec_witness :
    DBWellFormed dbP ∧
    ((1, DocType.question) ∈ phrase_search dbP "rest api".data ↔
      phrase_match_spec dbP (process true true "rest api".data) 1
        DocType.question) :=
  ⟨by show (dbP.inverted_index.map Prod.fst).Nodup; decide,
    (phrase_search_spec dbP "rest api".data
      (by show (dbP.inverted_index.map Prod.fst).Nodup; decide)).2.2
      (by decide) 1 DocType.question⟩

/-! ## C10: stopwords in a phrase break verbatim phrase matching -/

/-- C10: `phrase_search` processes the phrase with stopword removal (here
`rest of api` becomes `[rest, api]` since `of` is a stopword), while
document positions were recorded against the unfiltered token stream; so
for question 1, whose raw indexed text contains `rest of api` verbatim,
the phrase query returns nothing — the surviving terms are required at
directly consecutive document positions, but they sit two apart. -/
theorem phrase_stopword_gap :
    process true true "rest of api".data = ["rest".data, "api".data] ∧
    "of".data ∈ stopwords ∧
    substrB "rest of api".data (fullText "rest of api".data []) = true ∧
    get_postings (index_question emptyDB 1 "rest of api".data [] [])
      "rest".data ≠ [] ∧
    phrase_search (index_question emptyDB 1 "rest of api".data [] [])
      "rest of api".data = [] := by decide

/-! ## Lemmas for the result-collection pipeline -/

theorem results_loop_mem {db : Database} {ms : ℚ} {tg : Option Word} :
    ∀ (l : List (Int × ℚ × ℚ)) (n : Nat) (r : SearchResult),
      r ∈ results_loop db ms tg l n →
      ∃ qid bo orig, (qid, bo, orig) ∈ l ∧ ms ≤ orig ∧
        ∃ q, get_question db qid = some q ∧ r = mk_result db qid q bo orig
  | [], n, r => by simp [results_loop]
  | (qid, bo, orig) :: rest, n, r => by
    intro h
    simp only [results_loop] at h
    split at h
    · simp at h
    split at h
    · simp at h
    next hms =>
      split at h
      next hq =>
        obtain ⟨qid2, bo2, orig2, hmem, hle, hrest⟩ := results_loop_mem rest n r h
        exact ⟨qid2, bo2, orig2, by simp [hmem], hle, hrest⟩
      next q hq =>
        split at h
        next htag =>
          obtain ⟨qid2, bo2, orig2, hmem, hle, hrest⟩ := results_loop_mem rest n r h
          exact ⟨qid2, bo2, orig2, by simp [hmem], hle, hrest⟩
        next htag =>
          rcases List.mem_cons.1 h with rfl | h2
          · exact ⟨qid, bo, orig, by simp, not_lt.1 hms, q, hq, rfl⟩
          · obtain ⟨qid2, bo2, orig2, hmem, hle, hrest⟩ :=
              results_loop_mem rest (n - 1) r h2
            exact ⟨qid2, bo2, orig2, by simp [hmem], hle, hrest⟩

theorem sorted_boosted_mem {P : RankerParams} {db : Database}
    {ranked : List (Int × DocType × ℚ)} {qid : Int} {bo orig : ℚ}
    (h : (qid, bo, orig) ∈ sorted_boosted P db ranked) :
    (qid, orig) ∈ question_scores ranked := by
  unfold sorted_boosted at h
  have h2 := (List.perm_insertionSort _ _).mem_iff.1 h
  rcases List.mem_map.1 h2 with ⟨e, he, hbe⟩
  have he2 : e = (qid, orig) := by
    rcases e with ⟨eid, es⟩
    unfold boost_question at hbe
    rcases hq : get_question db eid with _ | q <;> rw [hq] at hbe <;>
      simp only [Prod.mk.injEq] at hbe <;>
      simp [hbe.1, hbe.2.2]
  rw [he2] at he
  exact (List.perm_insertionSort _ _).mem_iff.1 (List.take_subset _ _ he)

theorem mem_upsert {κ ν : Type} [DecidableEq κ] {k k2 : κ} {v v2 : ν} :
    ∀ {m : List (κ × ν)}, (k, v) ∈ upsert k2 v2 m → k = k2 ∨ (k, v) ∈ m
  | [], h => by
    simp [upsert] at h
    exact Or.inl h.1
  | (k1, v1) :: rest, h => by
    by_cases hk : k1 = k2
    · simp only [upsert, if_pos hk] at h
      rcases List.mem_cons.1 h with heq | hm
      · simp only [Prod.mk.injEq] at heq
        exact Or.inl heq.1
      · exact Or.inr (List.mem_cons_of_mem _ hm)
    · simp only [upsert, if_neg hk] at h
      rcases List.mem_cons.1 h with heq | hm
      · exact Or.inr (List.mem_cons.2 (Or.inl heq))
      · rcases mem_upsert hm with h1 | h2
        · exact Or.inl h1
        · exact Or.inr (List.mem_cons_of_mem _ h2)

theorem question_scores_fold {qid : Int} {s : ℚ} :
    ∀ (l : List (Int × DocType × ℚ)) (acc : List (Int × ℚ)),
      (qid, s) ∈ l.foldl question_scores_step acc →
      (∃ s1, (qid, s1) ∈ acc) ∨ ∃ s0, (qid, DocType.question, s0) ∈ l
  | [], acc, h => Or.inl ⟨s, h⟩
  | ⟨d, ty, sc⟩ :: rest, acc, h => by
    cases ty with
    | question =>
      rcases hlk : lookupA d acc with _ | s2
      · have h2 : (qid, s) ∈ rest.foldl question_scores_step (acc ++ [(d, sc)]) := by
          simp only [List.foldl_cons, question_scores_step] at h
          rw [hlk] at h
          exact h
        rcases question_scores_fold rest (acc ++ [(d, sc)]) h2 with ⟨s1, hs1⟩ | ⟨s0, hs0⟩
        · rcases List.mem_append.1 hs1 with hm | hm
          · exact Or.inl ⟨s1, hm⟩
          · simp only [List.mem_singleton, Prod.mk.injEq] at hm
            exact Or.inr ⟨sc, by simp [hm.1]⟩
        · exact Or.inr ⟨s0, List.mem_cons_of_mem _ hs0⟩
      · have h2 : (qid, s) ∈ rest.foldl question_scores_step
            (upsert d (max s2 sc) acc) := by
          simp only [List.foldl_cons, question_scores_step] at h
          rw [hlk] at h
          exact h
        rcases question_scores_fold rest (upsert d (max s2 sc) acc) h2
          with ⟨s1, hs1⟩ | ⟨s0, hs0⟩
        · rcases mem_upsert hs1 with h1 | h1
          · exact Or.inr ⟨sc, by simp [h1]⟩
          · exact Or.inl ⟨s1, h1⟩
        · exact Or.inr ⟨s0, List.mem_cons_of_mem _ hs0⟩
    | answer =>
      rcases question_scores_fold rest acc h with ⟨s1, hs1⟩ | ⟨s0, hs0⟩
      · exact Or.inl ⟨s1, hs1⟩
      · exact Or.inr ⟨s0, List.mem_cons_of_mem _ hs0⟩
    | question_tag =>
      rcases question_scores_fold rest acc h with ⟨s1, hs1⟩ | ⟨s0, hs0⟩
      · exact Or.inl ⟨s1, hs1⟩
      · exact Or.inr ⟨s0, List.mem_cons_of_mem _ hs0⟩

theorem question_scores_key {ranked : List (Int × DocType × ℚ)} {qid : Int}
    {s : ℚ} (h : (qid, s) ∈ question_scores ranked) :
    ∃ s0, (qid, DocType.question, s0) ∈ ranked := by
  rcases question_scores_fold ranked [] h with ⟨s1, hs1⟩ | hs
  · simp at hs1
  · exact hs

theorem rank_documents_mem {P : RankerParams} {db : Database} {qts : List Word}
    {cands : List (Int × DocType)} {qid : Int} {s0 : ℚ}
    (h : (qid, DocType.question, s0) ∈ rank_documents P db qts cands) :
    (qid, DocType.question) ∈ cands := by
  unfold rank_documents at h
  have h2 := (List.perm_insertionSort _ _).mem_iff.1 h
  rcases List.mem_map.1 h2 with ⟨c, hc, hce⟩
  rcases c with ⟨cid, cty⟩
  simp only [Prod.mk.injEq] at hce
  obtain ⟨h1, h2b, _⟩ := hce
  rw [← h1, ← h2b]
  exact hc

theorem candidate_docs_mem {db : Database} {qts : List Word} {pr : Int × DocType}
    (h : pr ∈ candidate_docs db qts) :
    ∃ term ∈ qts, ∃ row ∈ get_postings db term,
      (row.doc_id, row.doc_type) = pr := by
  unfold candidate_docs at h
  rw [mem_dedupFirst] at h
  rcases List.mem_flatMap.1 h with ⟨term, hterm, hmem⟩
  rcases List.mem_map.1 hmem with ⟨row, hrow, heq⟩
  exact ⟨term, hterm, row, hrow, heq⟩

/-! ## C1: the threshold cuts on the unboosted BM25 score -/

/-- C1: every result returned by `search_and_rank` comes from a boosted
entry whose *original* (pre-boost) BM25 score is at least `min_score` —
the collection loop stops at the first below-threshold original score, so
boosting can reorder results but never rescue a below-threshold
document.  The result's displayed scores are the roundings of that
original score and its boosted score. -/
theorem search_threshold (P : RankerParams) (db : Database) (query : List Char)
    (min_score : ℚ) (tag : Option Word) :
    ∀ r ∈ search_and_rank P db query min_score tag,
      ∃ bo orig,
        (r.question_id, bo, orig) ∈ sorted_boosted P db
          (rank_documents P db (process true true query)
            (candidate_docs db (process true true query))) ∧
        min_score ≤ orig ∧ r.bm25_score = round2 orig ∧
        r.boosted_score = round2 bo := by
  intro r hr
  simp only [search_and_rank] at hr
  by_cases h1 : (process true true query).isEmpty
  · rw [if_pos h1] at hr; simp at hr
  rw [if_neg h1] at hr
  by_cases h2 : (candidate_docs db (process true true query)).isEmpty
  · rw [if_pos h2] at hr; simp at hr
  rw [if_neg h2] at hr
  obtain ⟨qid, bo, orig, hmem, hle, q, hq, hre⟩ := results_loop_mem _ _ _ hr
  have hid : r.question_id = qid := by rw [hre]; rfl
  refine ⟨bo, orig, ?_, hle, ?_, ?_⟩
  · rw [hid]; exact hmem
  · rw [hre]; rfl
  · rw [hre]; rfl

/-- Witness for C1 on the concrete store `dbW`: the single result for
query `api` with `min_score = 0`. -/
theorem search_threshold_witness :
    ∃ bo orig,
      (r0.question_id, bo, orig) ∈ sorted_boosted P0 dbW
        (rank_documents P0 dbW (process true true "api".data)
          (candidate_docs dbW (process true true "api".data))) ∧
      (0 : ℚ) ≤ orig ∧ r0.bm25_score = round2 orig ∧
      r0.boosted_score = round2 bo :=
  search_threshold P0 dbW "api".data 0 none r0
    (of_decide_eq_true (by with_unfolding_all rfl))

/-! ## C3: answer-typed matches are dropped, not attributed to the parent -/

/-- C3 counterexample: in `dbA` the only posting for `api` is the
answer-typed posting of answer 10 (whose parent question 1 exists in the
store), and `search_and_rank` returns nothing at all — the answer-typed
match does not make the parent question eligible. -/
theorem answer_only_match_not_returned :
    get_postings dbA "api".data = [⟨10, DocType.answer, 1, [0]⟩] ∧
    get_question dbA 1 = some q0 ∧
    search_and_rank P0 dbA "api".data 0 none = [] :=
  of_decide_eq_true (by with_unfolding_all rfl)

/-- C3 (amended): answer-typed posting matches are never surfaced as
separate result entries, and they do not make the parent question
eligible either — `_collect_results` discards answer-typed (and
tag-typed) scored entries entirely, so every returned question owes its
presence to a question-typed posting of some query term. -/
theorem answer_matches_not_surfaced (P : RankerParams) (db : Database)
    (query : List Char) (min_score : ℚ) (tag : Option Word) :
    ∀ r ∈ search_and_rank P db query min_score tag,
      ∃ term ∈ process true true query,
        ∃ row ∈ get_postings db term,
          row.doc_id = r.question_id ∧ row.doc_type = DocType.question := by
  intro r hr
  simp only [search_and_rank] at hr
  by_cases h1 : (process true true query).isEmpty
  · rw [if_pos h1] at hr; simp at hr
  rw [if_neg h1] at hr
  by_cases h2 : (candidate_docs db (process true true query)).isEmpty
  · rw [if_pos h2] at hr; simp at hr
  rw [if_neg h2] at hr
  obtain ⟨qid, bo, orig, hmem, _, q, hq, hre⟩ := results_loop_mem _ _ _ hr
  have hid : r.question_id = qid := by rw [hre]; rfl
  have h3 := sorted_boosted_mem hmem
  obtain ⟨s0, h4⟩ := question_scores_key h3
  have h5 := rank_documents_mem h4
  obtain ⟨term, ht, row, hrow, heq⟩ := candidate_docs_mem h5
  simp only [Prod.mk.injEq] at heq
  exact ⟨term, ht, row, hrow, by rw [heq.1, hid], heq.2⟩

/-- Witness for C3 (amended) on `dbB`, where both question 1 and its
answer 10 are indexed for `api` and the query returns question 1. -/
theorem answer_matches_not_surfaced_witness :
    ∃ term ∈ process true true "api".data,
      ∃ row ∈ get_postings dbB term,
        row.doc_id = r1.question_id ∧ row.doc_type = DocType.question :=
  answer_matches_not_surfaced P0 dbB "api".data 0 none r1
    (of_decide_eq_true (by with_unfolding_all rfl))

end SwaRAG
